import Mathlib

/-!
Verification development for the Surge domain-list build pipeline.

Domains are modelled as `List Char` (JS strings restricted to their
character sequences).  A domain entry is either an exact entry
(`"example.com"`) or a suffix entry (`".example.com"`, leading dot).
The trie, the keyword automaton, the deduplicator and the sorter are
modelled from the specification (their sources are not part of the
`src/` snapshot); `build-reject-domainset.ts`, `parse-dnsmasq.ts` and
`fetch-assets.ts` are embedded from their sources.
-/

namespace Surge

/-- Domain strings are lists of characters. -/
abbrev DomainStr := List Char

/-- Convenience: the character list of a string literal. -/
def str (s : String) : DomainStr := s.data

/-- Split a character list at every `'.'` (the semantics of JS
`string.split('.')`): the result is the list of labels, always
non-empty, labels contain no dot, and joining with `'.'` recovers
the input. -/
def splitDot : List Char → List (List Char)
  | [] => [[]]
  | c :: rest =>
    if c = '.' then [] :: splitDot rest
    else
      match splitDot rest with
      | [] => [[c]]
      | s :: ss => (c :: s) :: ss

/-- Join labels with `'.'` (the semantics of JS `labels.join('.')`). -/
def joinDot : List (List Char) → List Char
  | [] => []
  | [x] => x
  | x :: xs => x ++ '.' :: joinDot xs

@[simp] theorem joinDot_nil : joinDot [] = [] := rfl

@[simp] theorem joinDot_single (x : List Char) : joinDot [x] = x := rfl

@[simp] theorem joinDot_cons₂ (x y : List Char) (ys : List (List Char)) :
    joinDot (x :: y :: ys) = x ++ '.' :: joinDot (y :: ys) := rfl

@[simp] theorem splitDot_nil : splitDot [] = [[]] := rfl

@[simp] theorem splitDot_dot (rest : List Char) :
    splitDot ('.' :: rest) = [] :: splitDot rest := by
  simp [splitDot]

theorem splitDot_ne_nil : ∀ d : List Char, splitDot d ≠ []
  | [] => by simp
  | c :: rest => by
    by_cases h : c = '.'
    · subst h; simp
    · simp only [splitDot, if_neg h]
      cases h' : splitDot rest <;> simp

theorem splitDot_cons_ne {c : Char} (rest : List Char) (h : c ≠ '.') :
    splitDot (c :: rest) = (c :: (splitDot rest).headI) :: (splitDot rest).tail := by
  simp only [splitDot, if_neg h]
  cases h' : splitDot rest with
  | nil => exact absurd h' (splitDot_ne_nil rest)
  | cons s ss => simp

theorem joinDot_splitDot : ∀ d : List Char, joinDot (splitDot d) = d
  | [] => rfl
  | c :: rest => by
    have ih := joinDot_splitDot rest
    by_cases h : c = '.'
    · subst h
      rw [splitDot_dot]
      cases h' : splitDot rest with
      | nil => exact absurd h' (splitDot_ne_nil rest)
      | cons s ss =>
        rw [h'] at ih
        simpa using ih
    · rw [splitDot_cons_ne rest h]
      cases h' : splitDot rest with
      | nil => exact absurd h' (splitDot_ne_nil rest)
      | cons s ss =>
        rw [h'] at ih
        cases ss with
        | nil => simpa using ih
        | cons t ts =>
          simp only [List.headI, List.tail, joinDot_cons₂] at *
          simpa using ih

theorem splitDot_append : ∀ a b : List Char,
    splitDot (a ++ '.' :: b) = splitDot a ++ splitDot b
  | [], b => by simp
  | c :: r, b => by
    have ih := splitDot_append r b
    by_cases h : c = '.'
    · subst h; simp [ih]
    · rw [List.cons_append, splitDot_cons_ne (r ++ '.' :: b) h, splitDot_cons_ne r h, ih]
      cases h' : splitDot r with
      | nil => exact absurd h' (splitDot_ne_nil r)
      | cons s ss => simp

theorem splitDot_dot_not_mem : ∀ d : List Char, ∀ s ∈ splitDot d, '.' ∉ s
  | [], s, hs => by
    simp only [splitDot_nil, List.mem_singleton] at hs
    subst hs; simp
  | c :: rest, s, hs => by
    by_cases h : c = '.'
    · subst h
      rw [splitDot_dot] at hs
      rcases List.mem_cons.1 hs with h' | h'
      · subst h'; simp
      · exact splitDot_dot_not_mem rest s h'
    · rw [splitDot_cons_ne rest h] at hs
      cases h' : splitDot rest with
      | nil => exact absurd h' (splitDot_ne_nil rest)
      | cons t ts =>
        rw [h'] at hs
        simp only [List.headI, List.tail] at hs
        rcases List.mem_cons.1 hs with h'' | h''
        · subst h''
          intro hmem
          rcases List.mem_cons.1 hmem with h₃ | h₃
          · exact h h₃.symm
          · exact splitDot_dot_not_mem rest t (by rw [h']; exact List.mem_cons_self t ts) h₃
        · exact splitDot_dot_not_mem rest s (by rw [h']; exact List.mem_cons_of_mem t h'')

theorem splitDot_dotfree {x : List Char} (h : '.' ∉ x) : splitDot x = [x] := by
  induction x with
  | nil => rfl
  | cons c r ih =>
    have hc : c ≠ '.' := fun hc => h (hc ▸ List.mem_cons_self c r)
    have hr : '.' ∉ r := fun hr => h (List.mem_cons_of_mem c hr)
    rw [splitDot_cons_ne r hc, ih hr]
    simp

theorem splitDot_joinDot : ∀ l : List (List Char), l ≠ [] → (∀ x ∈ l, '.' ∉ x) →
    splitDot (joinDot l) = l
  | [], h, _ => absurd rfl h
  | [x], _, hdf => by
    simpa using splitDot_dotfree (hdf x (List.mem_singleton.2 rfl))
  | x :: y :: ys, _, hdf => by
    have ih := splitDot_joinDot (y :: ys) (by simp)
      (fun z hz => hdf z (List.mem_cons_of_mem x hz))
    rw [joinDot_cons₂, splitDot_append, ih,
      splitDot_dotfree (hdf x (List.mem_cons_self x (y :: ys)))]
    simp

theorem joinDot_append : ∀ l₁ l₂ : List (List Char), l₁ ≠ [] → l₂ ≠ [] →
    joinDot (l₁ ++ l₂) = joinDot l₁ ++ '.' :: joinDot l₂
  | [], _, h, _ => absurd rfl h
  | [x], l₂, _, h₂ => by
    cases l₂ with
    | nil => exact absurd rfl h₂
    | cons y ys => simp
  | x :: y :: ys, l₂, _, h₂ => by
    have ih := joinDot_append (y :: ys) l₂ (by simp) h₂
    have h₁ : (y :: ys) ++ l₂ = y :: (ys ++ l₂) := rfl
    cases hz : ys ++ l₂ with
    | nil =>
      rcases List.append_eq_nil.1 hz with ⟨-, rfl⟩
      exact absurd rfl h₂
    | cons z zs =>
      calc joinDot ((x :: y :: ys) ++ l₂)
          = x ++ '.' :: joinDot ((y :: ys) ++ l₂) := by
            rw [show (x :: y :: ys) ++ l₂ = x :: y :: (ys ++ l₂) from rfl, hz]
            rw [show (y :: ys) ++ l₂ = y :: (ys ++ l₂) from rfl, hz]
            exact joinDot_cons₂ x y (z :: zs) ▸ rfl
        _ = x ++ '.' :: (joinDot (y :: ys) ++ '.' :: joinDot l₂) := by rw [ih]
        _ = joinDot (x :: y :: ys) ++ '.' :: joinDot l₂ := by
            rw [joinDot_cons₂]; simp

/-- Central coverage correspondence: the labels of `X` are a suffix of
the labels of `d` exactly when `d` equals `X` or `d` ends with `"." + X`. -/
theorem splitDot_suffix_iff (d X : List Char) :
    splitDot X <:+ splitDot d ↔ d = X ∨ ('.' :: X) <:+ d := by
  constructor
  · rintro ⟨r, hr⟩
    cases r with
    | nil =>
      left
      have : joinDot (splitDot d) = joinDot (splitDot X) := by rw [← hr]; rfl
      rwa [joinDot_splitDot, joinDot_splitDot] at this
    | cons r₀ rs =>
      right
      have hd : d = joinDot ((r₀ :: rs) ++ splitDot X) := by
        rw [hr, joinDot_splitDot]
      rw [joinDot_append (r₀ :: rs) (splitDot X) (by simp) (splitDot_ne_nil X),
        joinDot_splitDot] at hd
      exact ⟨joinDot (r₀ :: rs), hd.symm⟩
  · rintro (rfl | ⟨t, ht⟩)
    · exact List.suffix_refl _
    · rw [← ht, splitDot_append]
      exact List.suffix_append _ _

/-- Modelled from the spec: `src/Build/lib/trie.ts` (the `createTrie`
implementation) is absent from the `src/` snapshot.  A trie node per
spec §4.1/§3: a mapping from label to child node (modelled as a function
to keep labels unique per node), an is-suffix-terminal flag and an
is-exact-terminal flag. -/
inductive TNode : Type where
  | mk : (List Char → Option TNode) → Bool → Bool → TNode

def TNode.children : TNode → List Char → Option TNode
  | .mk c _ _ => c

def TNode.suffixT : TNode → Bool
  | .mk _ s _ => s

def TNode.exactT : TNode → Bool
  | .mk _ _ e => e

@[simp] theorem TNode.children_mk (c : List Char → Option TNode) (s e : Bool) :
    (TNode.mk c s e).children = c := rfl

@[simp] theorem TNode.suffixT_mk (c : List Char → Option TNode) (s e : Bool) :
    (TNode.mk c s e).suffixT = s := rfl

@[simp] theorem TNode.exactT_mk (c : List Char → Option TNode) (s e : Bool) :
    (TNode.mk c s e).exactT = e := rfl

/-- The node with no children and no terminal flags. -/
def emptyNode : TNode := .mk (fun _ => none) false false

/-- Modelled from the spec (§4.1 Build): walk/create the chain of trie
nodes along a reversed-label path, marking the terminal node's
is-suffix-terminal or is-exact-terminal flag. -/
def insertPath : List (List Char) → Bool → TNode → TNode
  | [], isSuffix, .mk c s e =>
    if isSuffix then .mk c true e else .mk c s true
  | l :: rest, isSuffix, .mk c s e =>
    .mk (fun l' => if l' = l then some (insertPath rest isSuffix ((c l).getD emptyNode)) else c l') s e

/-- The node reached from `t` by following the reversed-label path `p`. -/
def nodeAt : List (List Char) → TNode → Option TNode
  | [], t => some t
  | l :: rest, t =>
    match t.children l with
    | some c => nodeAt rest c
    | none => none

/-- Whether the node at path `p` exists and is suffix-terminal. -/
def suffixAt (p : List (List Char)) (t : TNode) : Bool :=
  ((nodeAt p t).map TNode.suffixT).getD false

/-- Whether the node at path `p` exists and is exact-terminal. -/
def exactAt (p : List (List Char)) (t : TNode) : Bool :=
  ((nodeAt p t).map TNode.exactT).getD false

/-- Modelled from the spec (§4.1 Build and §7): parse one domain entry.
Malformed entries (the empty string and a bare `"."`) are rejected;
otherwise a leading `'.'` is stripped (remembering suffix form), the rest
is split into labels by `'.'` and the label order reversed. -/
def parseEntry (e : DomainStr) : Option (Bool × List (List Char)) :=
  if e = [] then none
  else if e.head? = some '.' then
    if e.tail = [] then none
    else some (true, (splitDot e.tail).reverse)
  else some (false, (splitDot e).reverse)

/-- Insert one entry into the trie; malformed entries are skipped (§7). -/
def insertEntry (t : TNode) (e : DomainStr) : TNode :=
  match parseEntry e with
  | none => t
  | some (isSuf, p) => insertPath p isSuf t

/-- Modelled from the spec: `createTrie(entries)` builds the trie by
inserting every entry. -/
def createTrie (E : List DomainStr) : TNode := E.foldl insertEntry emptyNode

@[simp] theorem suffixAt_emptyNode (p : List (List Char)) : suffixAt p emptyNode = false := by
  cases p <;> simp [suffixAt, nodeAt, emptyNode]

@[simp] theorem exactAt_emptyNode (p : List (List Char)) : exactAt p emptyNode = false := by
  cases p <;> simp [exactAt, nodeAt, emptyNode]

theorem suffixAt_insertPath : ∀ (p q : List (List Char)) (b : Bool) (t : TNode),
    (suffixAt p (insertPath q b t) = true ↔ ((p = q ∧ b = true) ∨ suffixAt p t = true)) ∧
    (exactAt p (insertPath q b t) = true ↔ ((p = q ∧ b = false) ∨ exactAt p t = true))
  | [], [], b, .mk c s e => by
    cases b <;> simp [insertPath, suffixAt, exactAt, nodeAt]
  | [], l :: q', b, .mk c s e => by
    simp [insertPath, suffixAt, exactAt, nodeAt]
  | x :: p', [], b, .mk c s e => by
    cases b <;> simp [insertPath, suffixAt, exactAt, nodeAt]
  | x :: p', l :: q', b, .mk c s e => by
    by_cases hx : x = l
    · subst hx
      have ih := suffixAt_insertPath p' q' b ((c x).getD emptyNode)
      cases hc : c x with
      | some ch =>
        simp only [hc, Option.getD_some] at ih
        constructor
        · rw [show suffixAt (x :: p') (insertPath (x :: q') b (.mk c s e)) =
              suffixAt p' (insertPath q' b ch) from by
            simp [insertPath, suffixAt, nodeAt, hc]]
          rw [show suffixAt (x :: p') (.mk c s e) = suffixAt p' ch from by
            simp [suffixAt, nodeAt, hc]]
          rw [ih.1]
          simp
        · rw [show exactAt (x :: p') (insertPath (x :: q') b (.mk c s e)) =
              exactAt p' (insertPath q' b ch) from by
            simp [insertPath, exactAt, nodeAt, hc]]
          rw [show exactAt (x :: p') (.mk c s e) = exactAt p' ch from by
            simp [exactAt, nodeAt, hc]]
          rw [ih.2]
          simp
      | none =>
        simp only [hc, Option.getD_none] at ih
        constructor
        · rw [show suffixAt (x :: p') (insertPath (x :: q') b (.mk c s e)) =
              suffixAt p' (insertPath q' b emptyNode) from by
            simp [insertPath, suffixAt, nodeAt, hc]]
          rw [show suffixAt (x :: p') (.mk c s e) = false from by
            simp [suffixAt, nodeAt, hc]]
          rw [ih.1]
          simp
        · rw [show exactAt (x :: p') (insertPath (x :: q') b (.mk c s e)) =
              exactAt p' (insertPath q' b emptyNode) from by
            simp [insertPath, exactAt, nodeAt, hc]]
          rw [show exactAt (x :: p') (.mk c s e) = false from by
            simp [exactAt, nodeAt, hc]]
          rw [ih.2]
          simp
    · constructor
      · rw [show suffixAt (x :: p') (insertPath (l :: q') b (.mk c s e)) =
            suffixAt (x :: p') (.mk c s e) from by
          simp [insertPath, suffixAt, nodeAt, hx]]
        simp [hx]
      · rw [show exactAt (x :: p') (insertPath (l :: q') b (.mk c s e)) =
            exactAt (x :: p') (.mk c s e) from by
          simp [insertPath, exactAt, nodeAt, hx]]
        simp [hx]

theorem suffixAt_foldl : ∀ (E : List DomainStr) (t : TNode) (p : List (List Char)),
    suffixAt p (E.foldl insertEntry t) = true ↔
      (suffixAt p t = true ∨ ∃ e ∈ E, parseEntry e = some (true, p))
  | [], t, p => by simp
  | e :: E', t, p => by
    rw [List.foldl_cons, suffixAt_foldl E' (insertEntry t e) p]
    unfold insertEntry
    cases hp : parseEntry e with
    | none =>
      simp only [List.mem_cons]
      constructor
      · rintro (h | ⟨e', he', hpe⟩)
        · exact Or.inl h
        · exact Or.inr ⟨e', Or.inr he', hpe⟩
      · rintro (h | ⟨e', he', hpe⟩)
        · exact Or.inl h
        · rcases he' with rfl | he'
          · rw [hp] at hpe; exact absurd hpe (by simp)
          · exact Or.inr ⟨e', he', hpe⟩
    | some sb =>
      obtain ⟨isSuf, q⟩ := sb
      rw [(suffixAt_insertPath p q isSuf t).1]
      simp only [List.mem_cons]
      constructor
      · rintro ((⟨rfl, rfl⟩ | h) | h)
        · exact Or.inr ⟨e, Or.inl rfl, hp⟩
        · exact Or.inl h
        · obtain ⟨e', he', hpe⟩ := h
          exact Or.inr ⟨e', Or.inr he', hpe⟩
      · rintro (h | ⟨e', he', hpe⟩)
        · exact Or.inl (Or.inr h)
        · rcases he' with rfl | he'
          · rw [hp] at hpe
            simp only [Option.some.injEq, Prod.mk.injEq] at hpe
            exact Or.inl (Or.inl ⟨hpe.2.symm, hpe.1⟩)
          · exact Or.inr ⟨e', he', hpe⟩

theorem exactAt_foldl : ∀ (E : List DomainStr) (t : TNode) (p : List (List Char)),
    exactAt p (E.foldl insertEntry t) = true ↔
      (exactAt p t = true ∨ ∃ e ∈ E, parseEntry e = some (false, p))
  | [], t, p => by simp
  | e :: E', t, p => by
    rw [List.foldl_cons, exactAt_foldl E' (insertEntry t e) p]
    unfold insertEntry
    cases hp : parseEntry e with
    | none =>
      simp only [List.mem_cons]
      constructor
      · rintro (h | ⟨e', he', hpe⟩)
        · exact Or.inl h
        · exact Or.inr ⟨e', Or.inr he', hpe⟩
      · rintro (h | ⟨e', he', hpe⟩)
        · exact Or.inl h
        · rcases he' with rfl | he'
          · rw [hp] at hpe; exact absurd hpe (by simp)
          · exact Or.inr ⟨e', he', hpe⟩
    | some sb =>
      obtain ⟨isSuf, q⟩ := sb
      rw [(suffixAt_insertPath p q isSuf t).2]
      simp only [List.mem_cons]
      constructor
      · rintro ((⟨rfl, rfl⟩ | h) | h)
        · exact Or.inr ⟨e, Or.inl rfl, hp⟩
        · exact Or.inl h
        · obtain ⟨e', he', hpe⟩ := h
          exact Or.inr ⟨e', Or.inr he', hpe⟩
      · rintro (h | ⟨e', he', hpe⟩)
        · exact Or.inl (Or.inr h)
        · rcases he' with rfl | he'
          · rw [hp] at hpe
            simp only [Option.some.injEq, Prod.mk.injEq] at hpe
            exact Or.inl (Or.inl ⟨hpe.2.symm, hpe.1⟩)
          · exact Or.inr ⟨e', he', hpe⟩

/-- Characterization of the suffix-terminal flags of a built trie. -/
theorem suffixAt_createTrie (E : List DomainStr) (p : List (List Char)) :
    suffixAt p (createTrie E) = true ↔ ∃ e ∈ E, parseEntry e = some (true, p) := by
  rw [createTrie, suffixAt_foldl]
  simp

/-- Characterization of the exact-terminal flags of a built trie. -/
theorem exactAt_createTrie (E : List DomainStr) (p : List (List Char)) :
    exactAt p (createTrie E) = true ↔ ∃ e ∈ E, parseEntry e = some (false, p) := by
  rw [createTrie, exactAt_foldl]
  simp

/-- The strings a single node contributes to a `find` result: the
original inserted entry reconstructed from the root-to-node path
(`pref`, reversed labels); suffix-terminal entries always count, exact
ones only when `suffixOnly` is false (spec §4.1 Query find). -/
def findEmit (t : TNode) (pref : List (List Char)) (suffixOnly : Bool) : List DomainStr :=
  (if t.suffixT then ['.' :: joinDot pref.reverse] else []) ++
  (if !suffixOnly && t.exactT then [joinDot pref.reverse] else [])

/-- Modelled from the spec (§4.1 Query find): walk the trie following the
query's reversed labels, collecting the entries denoted by every visited
terminal node, stopping when a child is missing. -/
def findGo : TNode → List (List Char) → Bool → List (List Char) → List DomainStr
  | t, pref, so, [] => findEmit t pref so
  | t, pref, so, l :: rest =>
    findEmit t pref so ++
      match t.children l with
      | some c => findGo c (pref ++ [l]) so rest
      | none => []

/-- Modelled from the spec: `find(domain, suffixOnly=false)` returns the
originally-inserted strings that the query covers. -/
def TNode.find (t : TNode) (domain : DomainStr) (suffixOnly : Bool := false) : List DomainStr :=
  findGo t [] suffixOnly (splitDot domain).reverse

/-- Modelled from the spec (§4.1 Query contains): true iff some
ancestor-or-self node along the query's reversed-label path is
suffix-terminal. -/
def containsGo : TNode → List (List Char) → Bool
  | t, [] => t.suffixT
  | t, l :: rest =>
    t.suffixT ||
      match t.children l with
      | some c => containsGo c rest
      | none => false

/-- Modelled from the spec: `contains(domain)`. -/
def TNode.contains (t : TNode) (domain : DomainStr) : Bool :=
  containsGo t (splitDot domain).reverse

/-- Modelled from the spec (§4.1 Query has): exact terminal lookup — true
iff the domain, including its leading dot if any, was inserted verbatim. -/
def TNode.has (t : TNode) (domain : DomainStr) : Bool :=
  match parseEntry domain with
  | none => false
  | some (true, p) => suffixAt p t
  | some (false, p) => exactAt p t

@[simp] theorem nodeAt_nil (t : TNode) : nodeAt [] t = some t := rfl

theorem nodeAt_cons (l : List Char) (p : List (List Char)) (t : TNode) :
    nodeAt (l :: p) t = match t.children l with
      | some c => nodeAt p c
      | none => none := rfl

@[simp] theorem suffixAt_nil (t : TNode) : suffixAt [] t = t.suffixT := rfl

@[simp] theorem exactAt_nil (t : TNode) : exactAt [] t = t.exactT := rfl

theorem suffixAt_cons (l : List Char) (p : List (List Char)) (t : TNode) :
    suffixAt (l :: p) t = match t.children l with
      | some c => suffixAt p c
      | none => false := by
  rw [suffixAt, nodeAt_cons]
  cases t.children l with
  | some c => rfl
  | none => rfl

theorem exactAt_cons (l : List Char) (p : List (List Char)) (t : TNode) :
    exactAt (l :: p) t = match t.children l with
      | some c => exactAt p c
      | none => false := by
  rw [exactAt, nodeAt_cons]
  cases t.children l with
  | some c => rfl
  | none => rfl

theorem mem_findEmit (t : TNode) (pref : List (List Char)) (so : Bool) (s : DomainStr) :
    s ∈ findEmit t pref so ↔
      ((t.suffixT = true ∧ s = '.' :: joinDot pref.reverse) ∨
       (so = false ∧ t.exactT = true ∧ s = joinDot pref.reverse)) := by
  unfold findEmit
  cases hs : t.suffixT <;> cases he : t.exactT <;> cases so <;> simp

theorem mem_findGo : ∀ (qs : List (List Char)) (t : TNode) (pref : List (List Char))
    (so : Bool) (s : DomainStr),
    s ∈ findGo t pref so qs ↔
      ∃ p, p <+: qs ∧
        ((suffixAt p t = true ∧ s = '.' :: joinDot (pref ++ p).reverse) ∨
         (so = false ∧ exactAt p t = true ∧ s = joinDot (pref ++ p).reverse))
  | [], t, pref, so, s => by
    rw [show findGo t pref so [] = findEmit t pref so from rfl, mem_findEmit]
    constructor
    · intro h
      exact ⟨[], List.nil_prefix, by simpa using h⟩
    · rintro ⟨p, hp, h⟩
      rw [List.prefix_nil.1 hp] at h
      simpa using h
  | l :: rest, t, pref, so, s => by
    rw [show findGo t pref so (l :: rest) = findEmit t pref so ++
        (match t.children l with
          | some c => findGo c (pref ++ [l]) so rest
          | none => []) from rfl]
    rw [List.mem_append, mem_findEmit]
    constructor
    · rintro (h | h)
      · exact ⟨[], List.nil_prefix, by simpa using h⟩
      · cases hc : t.children l with
        | none => rw [hc] at h; simp at h
        | some c =>
          rw [hc] at h
          obtain ⟨p', hp', hdisj⟩ := (mem_findGo rest c (pref ++ [l]) so s).1 h
          refine ⟨l :: p', List.prefix_cons_iff.2 (Or.inr ⟨p', rfl, hp'⟩), ?_⟩
          rw [suffixAt_cons, exactAt_cons, hc]
          rwa [show pref ++ l :: p' = (pref ++ [l]) ++ p' by simp]
    · rintro ⟨p, hp, hdisj⟩
      rcases List.prefix_cons_iff.1 hp with rfl | ⟨p', rfl, hp'⟩
      · exact Or.inl (by simpa using hdisj)
      · right
        rw [suffixAt_cons, exactAt_cons] at hdisj
        cases hc : t.children l with
        | none =>
          rw [hc] at hdisj
          simp at hdisj
        | some c =>
          rw [hc] at hdisj
          show s ∈ findGo c (pref ++ [l]) so rest
          refine (mem_findGo rest c (pref ++ [l]) so s).2 ⟨p', hp', ?_⟩
          rwa [show pref ++ l :: p' = (pref ++ [l]) ++ p' by simp] at hdisj

theorem mem_find (t : TNode) (d : DomainStr) (so : Bool) (s : DomainStr) :
    s ∈ t.find d so ↔
      ∃ p, p <+: (splitDot d).reverse ∧
        ((suffixAt p t = true ∧ s = '.' :: joinDot p.reverse) ∨
         (so = false ∧ exactAt p t = true ∧ s = joinDot p.reverse)) := by
  rw [TNode.find, mem_findGo]
  simp

theorem containsGo_iff : ∀ (qs : List (List Char)) (t : TNode),
    containsGo t qs = true ↔ ∃ p, p <+: qs ∧ suffixAt p t = true
  | [], t => by
    constructor
    · intro h; exact ⟨[], List.nil_prefix, by simpa using h⟩
    · rintro ⟨p, hp, h⟩
      rw [List.prefix_nil.1 hp] at h
      simpa using h
  | l :: rest, t => by
    rw [show containsGo t (l :: rest) = (t.suffixT ||
        match t.children l with
          | some c => containsGo c rest
          | none => false) from rfl]
    rw [Bool.or_eq_true]
    constructor
    · rintro (h | h)
      · exact ⟨[], List.nil_prefix, by simpa using h⟩
      · cases hc : t.children l with
        | none => rw [hc] at h; simp at h
        | some c =>
          rw [hc] at h
          obtain ⟨p', hp', hs⟩ := (containsGo_iff rest c).1 h
          refine ⟨l :: p', List.prefix_cons_iff.2 (Or.inr ⟨p', rfl, hp'⟩), ?_⟩
          rw [suffixAt_cons, hc]
          exact hs
    · rintro ⟨p, hp, hs⟩
      rcases List.prefix_cons_iff.1 hp with rfl | ⟨p', rfl, hp'⟩
      · exact Or.inl (by simpa using hs)
      · right
        rw [suffixAt_cons] at hs
        cases hc : t.children l with
        | none => rw [hc] at hs; simp at hs
        | some c =>
          rw [hc] at hs
          show containsGo c rest = true
          exact (containsGo_iff rest c).2 ⟨p', hp', hs⟩

theorem contains_iff (t : TNode) (d : DomainStr) :
    t.contains d = true ↔ ∃ p, p <+: (splitDot d).reverse ∧ suffixAt p t = true :=
  containsGo_iff _ t

/-- Modelled from the spec (§4.3): whether some strict ancestor of the
path is suffix-terminal (an entry covered by a different, strictly
broader suffix entry in the same trie). -/
def ancestorSuffix : TNode → List (List Char) → Bool
  | _, [] => false
  | t, l :: rest =>
    t.suffixT ||
      match t.children l with
      | some c => ancestorSuffix c rest
      | none => false

theorem ancestorSuffix_iff : ∀ (p : List (List Char)) (t : TNode),
    ancestorSuffix t p = true ↔ ∃ q, q <+: p ∧ q ≠ p ∧ suffixAt q t = true
  | [], t => by
    constructor
    · intro h; simp [ancestorSuffix] at h
    · rintro ⟨q, hq, hne, -⟩
      exact absurd (List.prefix_nil.1 hq) hne
  | l :: rest, t => by
    rw [show ancestorSuffix t (l :: rest) = (t.suffixT ||
        match t.children l with
          | some c => ancestorSuffix c rest
          | none => false) from rfl]
    rw [Bool.or_eq_true]
    constructor
    · rintro (h | h)
      · exact ⟨[], List.nil_prefix, by simp, by simpa using h⟩
      · cases hc : t.children l with
        | none => rw [hc] at h; simp at h
        | some c =>
          rw [hc] at h
          obtain ⟨q', hq', hne', hs⟩ := (ancestorSuffix_iff rest c).1 h
          refine ⟨l :: q', List.prefix_cons_iff.2 (Or.inr ⟨q', rfl, hq'⟩), by simpa using hne', ?_⟩
          rw [suffixAt_cons, hc]
          exact hs
    · rintro ⟨q, hq, hne, hs⟩
      rcases List.prefix_cons_iff.1 hq with rfl | ⟨q', rfl, hq'⟩
      · exact Or.inl (by simpa using hs)
      · right
        rw [suffixAt_cons] at hs
        cases hc : t.children l with
        | none => rw [hc] at hs; simp at hs
        | some c =>
          rw [hc] at hs
          show ancestorSuffix c rest = true
          exact (ancestorSuffix_iff rest c).2 ⟨q', hq', by simpa using hne, hs⟩

/-- Modelled from the spec (§4.3): `dedupe(entries)` builds a trie over
all entries, then drops every entry covered by a different, strictly
broader suffix entry of the set; the tie-break drops an exact entry `X`
when the suffix entry `.X` is present.  Malformed entries are skipped
(§7 caller policy). -/
def domainDeduper (S : List DomainStr) : List DomainStr :=
  let t := createTrie S
  S.filter fun e =>
    match parseEntry e with
    | none => false
    | some (isSuf, p) => !(ancestorSuffix t p || (!isSuf && suffixAt p t))

theorem parseEntry_dot {X : DomainStr} (h : X ≠ []) :
    parseEntry ('.' :: X) = some (true, (splitDot X).reverse) := by
  unfold parseEntry
  simp [h]

theorem parseEntry_notdot {e : DomainStr} (h : e ≠ []) (h2 : e.head? ≠ some '.') :
    parseEntry e = some (false, (splitDot e).reverse) := by
  unfold parseEntry
  simp [h, h2]

theorem parseEntry_true_inv {e : DomainStr} {p : List (List Char)}
    (hp : parseEntry e = some (true, p)) :
    ∃ X, X ≠ [] ∧ e = '.' :: X ∧ p = (splitDot X).reverse := by
  cases e with
  | nil => simp [parseEntry] at hp
  | cons c r =>
    by_cases hc : c = '.'
    · subst hc
      cases r with
      | nil => simp [parseEntry] at hp
      | cons d ds =>
        rw [parseEntry_dot (by simp : (d :: ds : DomainStr) ≠ [])] at hp
        exact ⟨d :: ds, by simp, rfl, by simpa using hp.symm⟩
    · rw [parseEntry_notdot (by simp) (by simp [hc])] at hp
      simp at hp

theorem parseEntry_false_inv {e : DomainStr} {p : List (List Char)}
    (hp : parseEntry e = some (false, p)) :
    e ≠ [] ∧ e.head? ≠ some '.' ∧ p = (splitDot e).reverse := by
  cases e with
  | nil => simp [parseEntry] at hp
  | cons c r =>
    by_cases hc : c = '.'
    · subst hc
      cases r with
      | nil => simp [parseEntry] at hp
      | cons d ds =>
        rw [parseEntry_dot (by simp : (d :: ds : DomainStr) ≠ [])] at hp
        simp at hp
    · rw [parseEntry_notdot (by simp) (by simp [hc])] at hp
      exact ⟨by simp, by simp [hc], by simpa using hp.symm⟩

/-- The covering relation of the claims: `a` covers `b` iff `a = b`, or
`a` is a suffix entry `.X` and `b = X` or `b` ends in `".X"`. -/
def covers (a b : DomainStr) : Prop :=
  a = b ∨ ∃ X, a = '.' :: X ∧ (b = X ∨ ('.' :: X) <:+ b)

theorem covers_iff_head (a b : DomainStr) :
    covers a b ↔ a = b ∨ (a.head? = some '.' ∧ (b = a.tail ∨ a <:+ b)) := by
  unfold covers
  constructor
  · rintro (rfl | ⟨X, rfl, h⟩)
    · exact Or.inl rfl
    · exact Or.inr ⟨rfl, h⟩
  · rintro (rfl | ⟨hh, h⟩)
    · exact Or.inl rfl
    · cases a with
      | nil => exact absurd hh (by simp)
      | cons c r =>
        have : c = '.' := by simpa using hh
        subst this
        exact Or.inr ⟨r, rfl, h⟩

instance coversDecidable (a b : DomainStr) : Decidable (covers a b) :=
  decidable_of_iff _ (covers_iff_head a b).symm

theorem ancestorSuffix_of_strict_ancestor {t : TNode} {p q : List (List Char)}
    (hq : q <+: p) (hne : q ≠ p) (hs : suffixAt q t = true) :
    ancestorSuffix t p = true :=
  (ancestorSuffix_iff p t).2 ⟨q, hq, hne, hs⟩

theorem ne_append_of_ne_nil {α : Type} (l r : List α) (hr : r ≠ []) : l ≠ l ++ r := by
  intro h
  have hlen := congrArg List.length h
  rw [List.length_append] at hlen
  have : r.length = 0 := by omega
  exact hr (List.length_eq_zero.1 this)

/-- Membership in the deduplicated list, characterized. -/
theorem mem_domainDeduper_iff {S : List DomainStr} {e : DomainStr} :
    e ∈ domainDeduper S ↔
      e ∈ S ∧ ∃ isSuf p, parseEntry e = some (isSuf, p) ∧
        ancestorSuffix (createTrie S) p = false ∧
        (isSuf = true ∨ suffixAt p (createTrie S) = false) := by
  unfold domainDeduper
  rw [List.mem_filter]
  cases hp : parseEntry e with
  | none => simp [hp]
  | some sb =>
    obtain ⟨isSuf, p⟩ := sb
    simp only [hp, Option.some.injEq, Prod.mk.injEq]
    constructor
    · rintro ⟨he, hb⟩
      simp only [Bool.not_eq_true', Bool.or_eq_false_iff, Bool.and_eq_false_iff,
        Bool.not_eq_false'] at hb
      exact ⟨he, isSuf, p, ⟨rfl, rfl⟩, hb.1, hb.2⟩
    · rintro ⟨he, isSuf', p', ⟨h1, h2⟩, hanc, htie⟩
      subst h1; subst h2
      refine ⟨he, ?_⟩
      simp only [Bool.not_eq_true', Bool.or_eq_false_iff, Bool.and_eq_false_iff,
        Bool.not_eq_false']
      exact ⟨hanc, htie⟩

theorem mem_of_mem_domainDeduper {S : List DomainStr} {e : DomainStr}
    (h : e ∈ domainDeduper S) : e ∈ S :=
  (mem_domainDeduper_iff.1 h).1

theorem domainDeduper_def (S : List DomainStr) :
    domainDeduper S = S.filter fun e =>
      match parseEntry e with
      | none => false
      | some (isSuf, p) =>
        !(ancestorSuffix (createTrie S) p || (!isSuf && suffixAt p (createTrie S))) := rfl

/-- C2: for every input list `S`, in the output of `dedupe(S)` no two
distinct surviving entries `a` and `b` satisfy "`a` covers `b`" (`a`
covers `b` iff `a = b`, or `a` is a suffix entry `.X` and `b = X` or `b`
ends with `".X"`). -/
theorem c2_dedupe_sound (S : List DomainStr) (a b : DomainStr)
    (ha : a ∈ domainDeduper S) (hb : b ∈ domainDeduper S) (hne : a ≠ b) :
    ¬ covers a b := by
  intro hcov
  obtain ⟨haS, sa, pa, hpa, hancA, htieA⟩ := mem_domainDeduper_iff.1 ha
  obtain ⟨hbS, sb, pb, hpb, hancB, htieB⟩ := mem_domainDeduper_iff.1 hb
  rcases hcov with rfl | ⟨X, rfl, hcase⟩
  · exact hne rfl
  have hXne : X ≠ [] := by
    rintro rfl
    simp [parseEntry] at hpa
  have hpaval : parseEntry ('.' :: X) = some (true, (splitDot X).reverse) := parseEntry_dot hXne
  have hsufX : suffixAt (splitDot X).reverse (createTrie S) = true :=
    (suffixAt_createTrie S _).2 ⟨'.' :: X, haS, hpaval⟩
  obtain ⟨rfl, rfl⟩ : sa = true ∧ pa = (splitDot X).reverse := by
    have h' := Option.some.inj (hpa.symm.trans hpaval)
    exact ⟨congrArg Prod.fst h', congrArg Prod.snd h'⟩
  rcases hcase with hbX | hsuf
  · cases sb with
    | false =>
      obtain ⟨hbne, hbhead, hpbval⟩ := parseEntry_false_inv hpb
      have htie : suffixAt pb (createTrie S) = false := by
        rcases htieB with h | h
        · simp at h
        · exact h
      rw [hpbval, hbX] at htie
      rw [htie] at hsufX
      exact absurd hsufX (by simp)
    | true =>
      obtain ⟨Z, hZne, hbZ, hpbval⟩ := parseEntry_true_inv hpb
      have hXZ : X = '.' :: Z := by rw [← hbX, hbZ]
      have hpa2 : (splitDot X).reverse = (splitDot Z).reverse ++ [[]] := by
        rw [hXZ, splitDot_dot, List.reverse_cons]
      have hanc : ancestorSuffix (createTrie S) (splitDot X).reverse = true := by
        apply ancestorSuffix_of_strict_ancestor (q := (splitDot Z).reverse)
        · rw [hpa2]; exact List.prefix_append _ _
        · rw [hpa2]; exact ne_append_of_ne_nil _ _ (by simp)
        · exact (suffixAt_createTrie S _).2 ⟨b, hbS, hpbval ▸ hpb⟩
      rw [hancA] at hanc
      exact absurd hanc (by simp)
  · obtain ⟨u, hu⟩ := hsuf
    cases u with
    | nil => exact hne (by simpa using hu)
    | cons u₀ us =>
      cases sb with
      | false =>
        obtain ⟨hbne, hbhead, hpbval⟩ := parseEntry_false_inv hpb
        have hsplit : splitDot b = splitDot (u₀ :: us) ++ splitDot X := by
          rw [← hu]
          exact splitDot_append (u₀ :: us) X
        have hpb2 : pb = (splitDot X).reverse ++ (splitDot (u₀ :: us)).reverse := by
          rw [hpbval, hsplit, List.reverse_append]
        have hanc : ancestorSuffix (createTrie S) pb = true := by
          apply ancestorSuffix_of_strict_ancestor (q := (splitDot X).reverse)
          · rw [hpb2]; exact List.prefix_append _ _
          · rw [hpb2]
            exact ne_append_of_ne_nil _ _ (by simpa using splitDot_ne_nil (u₀ :: us))
          · exact hsufX
        rw [hancB] at hanc
        exact absurd hanc (by simp)
      | true =>
        obtain ⟨W, hWne, hbW, hpbval⟩ := parseEntry_true_inv hpb
        have hu' : u₀ :: (us ++ '.' :: X) = '.' :: W := by
          rw [← hbW, ← hu]
          rfl
        have hW : W = us ++ '.' :: X := by
          injection hu' with h3 h4
          exact h4.symm
        have hsplit : splitDot W = splitDot us ++ splitDot X := by
          rw [hW]
          exact splitDot_append us X
        have hpb2 : pb = (splitDot X).reverse ++ (splitDot us).reverse := by
          rw [hpbval, hsplit, List.reverse_append]
        have hanc : ancestorSuffix (createTrie S) pb = true := by
          apply ancestorSuffix_of_strict_ancestor (q := (splitDot X).reverse)
          · rw [hpb2]; exact List.prefix_append _ _
          · rw [hpb2]
            exact ne_append_of_ne_nil _ _ (by simpa using splitDot_ne_nil us)
          · exact hsufX
        rw [hancB] at hanc
        exact absurd hanc (by simp)

/-- Witness for C2 at a concrete input. -/
theorem c2_dedupe_sound_witness : ¬ covers (str "a.com") (str "b.org") :=
  c2_dedupe_sound [str "a.com", str "b.org"] (str "a.com") (str "b.org")
    (by decide) (by decide) (by decide)

/-- C7 counterexample: the claim says that whenever an input set contains
both `X` and `.X`, dedupe keeps `.X`; but with the broader suffix `.com`
also present, `.b.com` is itself dropped. -/
theorem c7_counterexample :
    (str "b.com") ∈ [str ".com", str "b.com", str ".b.com"] ∧
    (str ".b.com") ∈ [str ".com", str "b.com", str ".b.com"] ∧
    (str ".b.com") ∉ domainDeduper [str ".com", str "b.com", str ".b.com"] := by
  decide

/-- C7 (amended): if the input contains both an exact entry `X` and the
suffix entry `.X`, then dedupe always drops `X`; it keeps `.X` provided
no other entry of the input covers `.X`. -/
theorem c7_dedupe_tiebreak (S : List DomainStr) (X : DomainStr)
    (hX : X ∈ S) (hdX : ('.' :: X) ∈ S) (hXne : X ≠ []) (hXhead : X.head? ≠ some '.') :
    X ∉ domainDeduper S ∧
      ((∀ s ∈ S, s ≠ '.' :: X → ¬ covers s ('.' :: X)) → ('.' :: X) ∈ domainDeduper S) := by
  have hpX : parseEntry X = some (false, (splitDot X).reverse) := parseEntry_notdot hXne hXhead
  have hpdX : parseEntry ('.' :: X) = some (true, (splitDot X).reverse) := parseEntry_dot hXne
  have hsufX : suffixAt (splitDot X).reverse (createTrie S) = true :=
    (suffixAt_createTrie S _).2 ⟨'.' :: X, hdX, hpdX⟩
  constructor
  · intro hmem
    obtain ⟨-, isSuf, p, hp, hanc, htie⟩ := mem_domainDeduper_iff.1 hmem
    obtain ⟨rfl, rfl⟩ : isSuf = false ∧ p = (splitDot X).reverse := by
      have h' := Option.some.inj (hp.symm.trans hpX)
      exact ⟨congrArg Prod.fst h', congrArg Prod.snd h'⟩
    rcases htie with h | h
    · simp at h
    · rw [h] at hsufX
      exact absurd hsufX (by simp)
  · intro hno
    refine mem_domainDeduper_iff.2 ⟨hdX, true, (splitDot X).reverse, hpdX, ?_, Or.inl rfl⟩
    cases hA : ancestorSuffix (createTrie S) (splitDot X).reverse with
    | false => rfl
    | true =>
      exfalso
      obtain ⟨q, hq, hne, hsq⟩ := (ancestorSuffix_iff _ _).1 hA
      obtain ⟨s, hsS, hps⟩ := (suffixAt_createTrie S q).1 hsq
      obtain ⟨Y, hYne, rfl, rfl⟩ := parseEntry_true_inv hps
      have hYX : splitDot Y <:+ splitDot X := by
        rw [← List.reverse_prefix]
        simpa using hq
      rcases (splitDot_suffix_iff X Y).1 hYX with rfl | hsfx
      · exact absurd rfl hne
      · have hsne : ('.' :: Y) ≠ ('.' :: X) := by
          rintro hEq
          have : Y = X := by simpa using hEq
          subst this
          exact hne rfl
        apply hno ('.' :: Y) hsS hsne
        right
        refine ⟨Y, rfl, Or.inr ?_⟩
        obtain ⟨v, hv⟩ := hsfx
        exact ⟨'.' :: v, by rw [← hv]; rfl⟩

/-- Witness for C7 (amended) at a concrete input. -/
theorem c7_dedupe_tiebreak_witness :
    (str "b.com") ∉ domainDeduper [str "b.com", str ".b.com"] ∧
      (str ".b.com") ∈ domainDeduper [str "b.com", str ".b.com"] := by
  have h := c7_dedupe_tiebreak [str "b.com", str ".b.com"] (str "b.com")
    (by decide) (by decide) (by decide) (by decide)
  exact ⟨h.1, h.2 (by decide)⟩

/-- C8: dedupe is idempotent — deduplicating an already deduplicated
list changes nothing (proved as equality of lists, which implies the
claimed equality of sets). -/
theorem c8_dedupe_idem (S : List DomainStr) :
    domainDeduper (domainDeduper S) = domainDeduper S := by
  have hmono : ∀ q, suffixAt q (createTrie (domainDeduper S)) = true →
      suffixAt q (createTrie S) = true := by
    intro q hq
    obtain ⟨e', he', hpe⟩ := (suffixAt_createTrie _ q).1 hq
    exact (suffixAt_createTrie S q).2 ⟨e', mem_of_mem_domainDeduper he', hpe⟩
  rw [domainDeduper_def (domainDeduper S)]
  apply List.filter_eq_self.2
  intro e he
  obtain ⟨heS, isSuf, p, hpe, hanc, htie⟩ := mem_domainDeduper_iff.1 he
  have h1 : ancestorSuffix (createTrie (domainDeduper S)) p = false := by
    cases hA : ancestorSuffix (createTrie (domainDeduper S)) p with
    | false => rfl
    | true =>
      obtain ⟨q, hq, hne2, hsq⟩ := (ancestorSuffix_iff p _).1 hA
      have hS := ancestorSuffix_of_strict_ancestor hq hne2 (hmono q hsq)
      rw [hanc] at hS
      exact absurd hS (by simp)
  have h2 : (!isSuf && suffixAt p (createTrie (domainDeduper S))) = false := by
    rcases htie with h | h
    · rw [h]; simp
    · cases hx : suffixAt p (createTrie (domainDeduper S)) with
      | false => simp
      | true => exact absurd (hmono p hx) (by simp [h])
  show (match parseEntry e with
    | none => false
    | some (isSuf, p) =>
      !(ancestorSuffix (createTrie (domainDeduper S)) p ||
        (!isSuf && suffixAt p (createTrie (domainDeduper S))))) = true
  rw [hpe]
  show (!(ancestorSuffix (createTrie (domainDeduper S)) p ||
      (!isSuf && suffixAt p (createTrie (domainDeduper S))))) = true
  rw [h1, h2]
  rfl

/-- C3: for every trie built from a list of domain entries, every query
domain `d` and every inserted suffix entry `.X`: `find(d)` (with the
default `suffixOnly = false`) includes `.X` iff `d = X` or `d` ends with
`"." + X`. -/
theorem c3_trie_coverage (E : List DomainStr) (d X : DomainStr)
    (hmem : ('.' :: X) ∈ E) (hXne : X ≠ []) :
    ('.' :: X) ∈ (createTrie E).find d ↔ (d = X ∨ ('.' :: X) <:+ d) := by
  rw [TNode.find, mem_findGo]
  constructor
  · rintro ⟨p, hp, hcase⟩
    rcases hcase with ⟨hsuf, hrec⟩ | ⟨-, hex, hrec⟩
    · obtain ⟨e, heE, hpe⟩ := (suffixAt_createTrie E p).1 hsuf
      obtain ⟨Y, hYne, rfl, rfl⟩ := parseEntry_true_inv hpe
      rw [List.nil_append, List.reverse_reverse, joinDot_splitDot] at hrec
      have hXY : X = Y := by injection hrec
      subst hXY
      have hsufd : splitDot X <:+ splitDot d := by
        rw [← List.reverse_prefix]
        simpa using hp
      exact (splitDot_suffix_iff d X).1 hsufd
    · obtain ⟨e, heE, hpe⟩ := (exactAt_createTrie E p).1 hex
      obtain ⟨hene, hehead, hpval⟩ := parseEntry_false_inv hpe
      rw [List.nil_append, hpval, List.reverse_reverse, joinDot_splitDot] at hrec
      rw [← hrec] at hehead
      exact absurd (rfl : ('.' :: X).head? = some '.') hehead
  · intro hcov
    have hsufd : splitDot X <:+ splitDot d := (splitDot_suffix_iff d X).2 hcov
    refine ⟨(splitDot X).reverse, ?_, Or.inl ⟨?_, ?_⟩⟩
    · exact List.reverse_prefix.2 hsufd
    · exact (suffixAt_createTrie E _).2 ⟨'.' :: X, hmem, parseEntry_dot hXne⟩
    · rw [List.nil_append, List.reverse_reverse, joinDot_splitDot]

/-- Witness for C3 at a concrete input: the trie holding `.b.com`,
queried with `a.b.com`. -/
theorem c3_trie_coverage_witness :
    ('.' :: str "b.com") ∈ (createTrie [str ".b.com"]).find (str "a.b.com") ↔
      (str "a.b.com" = str "b.com" ∨ ('.' :: str "b.com") <:+ str "a.b.com") :=
  c3_trie_coverage [str ".b.com"] (str "a.b.com") (str "b.com") (by decide) (by decide)

/-- Modelled from the spec: `src/Build/lib/aho-corasick.ts`
(`createKeywordFilter`) is absent from the snapshot.  Automaton states
are keyword prefixes (spec §4.2); a state is valid when it is the root
(empty path) or a prefix of some keyword. -/
def isStateOf (K : List (List Char)) (s : List Char) : Bool :=
  s.isEmpty || K.any fun k => decide (s <+: k)

/-- The longest suffix of `u` that is a valid automaton state.  In the
automaton this is what repeatedly following failure links computes: each
state's failure target is the longest proper suffix of its path that is
also a path from the root (spec §4.2). -/
def longestStateSuffix (K : List (List Char)) : List Char → List Char
  | [] => []
  | c :: r => if isStateOf K (c :: r) then c :: r else longestStateSuffix K r

/-- One step of the scan: from state `s` on character `c`, follow the
forward transition or, on a miss, failure links; the net effect is the
longest valid-state suffix of `s ++ [c]`. -/
def nextState (K : List (List Char)) (s : List Char) (c : Char) : List Char :=
  longestStateSuffix K (s ++ [c])

/-- A state is a match state iff its own path equals a keyword or its
failure chain includes a match state — i.e. some suffix of the path is a
keyword (spec §4.2 Build, output markers). -/
def isMatchState (K : List (List Char)) (s : List Char) : Bool :=
  K.any fun k => decide (k <:+ s)

/-- The scan loop: true as soon as any visited state (the start state
included) is a match state. -/
def searchGo (K : List (List Char)) : List Char → List Char → Bool
  | s, [] => isMatchState K s
  | s, c :: r => isMatchState K s || searchGo K (nextState K s c) r

/-- Modelled from the spec: `createKeywordFilter(keywords).search(text)`,
a single left-to-right scan from the root state. -/
def kwSearch (K : List (List Char)) (text : List Char) : Bool :=
  searchGo K [] text

theorem isStateOf_iff (K : List (List Char)) (s : List Char) :
    isStateOf K s = true ↔ (s = [] ∨ ∃ k ∈ K, s <+: k) := by
  simp [isStateOf, List.isEmpty_iff, List.any_eq_true]

theorem isStateOf_nil (K : List (List Char)) : isStateOf K [] = true :=
  (isStateOf_iff K []).2 (Or.inl rfl)

theorem isStateOf_dropLast {K : List (List Char)} {l : List Char} {c : Char}
    (h : isStateOf K (l ++ [c]) = true) : isStateOf K l = true := by
  rcases (isStateOf_iff K (l ++ [c])).1 h with h' | ⟨k, hk, hpre⟩
  · exact absurd h' (by simp)
  · exact (isStateOf_iff K l).2 (Or.inr ⟨k, hk, (List.prefix_append l [c]).trans hpre⟩)

theorem lss_suffix (K : List (List Char)) : ∀ u, longestStateSuffix K u <:+ u
  | [] => List.suffix_refl []
  | c :: r => by
    rw [longestStateSuffix]
    split
    · exact List.suffix_refl _
    · exact (lss_suffix K r).trans (List.suffix_cons c r)

theorem lss_isState (K : List (List Char)) : ∀ u, isStateOf K (longestStateSuffix K u) = true
  | [] => isStateOf_nil K
  | c :: r => by
    rw [longestStateSuffix]
    split
    · assumption
    · exact lss_isState K r

theorem lss_longest (K : List (List Char)) : ∀ u v, v <:+ u → isStateOf K v = true →
    v <:+ longestStateSuffix K u
  | [], v, hv, _ => by
    rw [List.suffix_nil.1 hv]
    exact List.suffix_refl _
  | c :: r, v, hv, hst => by
    rw [longestStateSuffix]
    split
    · exact hv
    · rcases List.suffix_cons_iff.1 hv with rfl | hv'
      · next hfalse => exact absurd hst hfalse
      · exact lss_longest K r v hv' hst

theorem suffix_append_single {s u : List Char} (h : s <:+ u) (c : Char) :
    s ++ [c] <:+ u ++ [c] := by
  obtain ⟨t, rfl⟩ := h
  exact ⟨t, by rw [List.append_assoc]⟩

theorem lss_append (K : List (List Char)) (u : List Char) (c : Char) :
    longestStateSuffix K (u ++ [c]) =
      longestStateSuffix K (longestStateSuffix K u ++ [c]) := by
  have hRL : longestStateSuffix K (longestStateSuffix K u ++ [c]) <:+
      longestStateSuffix K (u ++ [c]) := by
    apply lss_longest
    · exact (lss_suffix K _).trans (suffix_append_single (lss_suffix K u) c)
    · exact lss_isState K _
  have hLR : longestStateSuffix K (u ++ [c]) <:+
      longestStateSuffix K (longestStateSuffix K u ++ [c]) := by
    rcases List.suffix_concat_iff.1 (lss_suffix K (u ++ [c])) with hnil | ⟨t, ht, htu⟩
    · rw [hnil]
      exact List.nil_suffix
    · have hstL := lss_isState K (u ++ [c])
      rw [ht] at hstL ⊢
      have hstt : isStateOf K t = true := isStateOf_dropLast hstL
      apply lss_longest
      · exact suffix_append_single (lss_longest K u t htu hstt) c
      · exact hstL
  exact hLR.eq_of_length_le hRL.length_le ▸ (by rw [hLR.eq_of_length_le hRL.length_le])

theorem isMatchState_iff (K : List (List Char)) (s : List Char) :
    isMatchState K s = true ↔ ∃ k ∈ K, k <:+ s := by
  simp [isMatchState, List.any_eq_true]

theorem isMatchState_lss (K : List (List Char)) (u : List Char) :
    isMatchState K (longestStateSuffix K u) = true ↔ ∃ k ∈ K, k <:+ u := by
  rw [isMatchState_iff]
  constructor
  · rintro ⟨k, hk, hs⟩
    exact ⟨k, hk, hs.trans (lss_suffix K u)⟩
  · rintro ⟨k, hk, hs⟩
    refine ⟨k, hk, lss_longest K u k hs ?_⟩
    exact (isStateOf_iff K k).2 (Or.inr ⟨k, hk, List.prefix_refl k⟩)

theorem searchGo_lss (K : List (List Char)) : ∀ (ts u : List Char),
    searchGo K (longestStateSuffix K u) ts = true ↔
      ∃ v w, ts = v ++ w ∧ ∃ k ∈ K, k <:+ (u ++ v)
  | [], u => by
    rw [searchGo, isMatchState_lss]
    constructor
    · rintro ⟨k, hk, hs⟩
      exact ⟨[], [], rfl, k, hk, by simpa using hs⟩
    · rintro ⟨v, w, hvw, k, hk, hs⟩
      obtain ⟨rfl, rfl⟩ := List.append_eq_nil.1 hvw.symm
      exact ⟨k, hk, by simpa using hs⟩
  | c :: r, u => by
    rw [searchGo, Bool.or_eq_true, isMatchState_lss]
    rw [show nextState K (longestStateSuffix K u) c =
        longestStateSuffix K (u ++ [c]) from (lss_append K u c).symm]
    rw [searchGo_lss K r (u ++ [c])]
    constructor
    · rintro (⟨k, hk, hs⟩ | ⟨v, w, rfl, k, hk, hs⟩)
      · exact ⟨[], c :: r, by simp, k, hk, by simpa using hs⟩
      · exact ⟨c :: v, w, rfl, k, hk, by simpa [List.append_assoc] using hs⟩
    · rintro ⟨v, w, hvw, k, hk, hs⟩
      cases v with
      | nil =>
        exact Or.inl ⟨k, hk, by simpa using hs⟩
      | cons v₀ v' =>
        have hv₀ : v₀ = c ∧ r = v' ++ w := by
          have := hvw
          rw [List.cons_append] at this
          injection this with h1 h2
          exact ⟨h1.symm, h2⟩
        obtain ⟨rfl, rfl⟩ := hv₀
        exact Or.inr ⟨v', w, rfl, k, hk, by simpa [List.append_assoc] using hs⟩

/-- Correctness of the scan: `search` is true exactly when some keyword
is an infix of the text. -/
theorem kwSearch_iff_substring (K : List (List Char)) (t : List Char) :
    kwSearch K t = true ↔ ∃ k ∈ K, k <:+: t := by
  have h := searchGo_lss K t []
  rw [show longestStateSuffix K [] = [] from rfl] at h
  rw [kwSearch, h]
  constructor
  · rintro ⟨v, w, rfl, k, hk, hs⟩
    rw [List.nil_append] at hs
    obtain ⟨pre, rfl⟩ := hs
    exact ⟨k, hk, pre, w, by rw [List.append_assoc]⟩
  · rintro ⟨k, hk, s, t', rfl⟩
    exact ⟨s ++ k, t', by rw [List.append_assoc], k, hk, by simp⟩

/-- C4: for every keyword set `K` and text `t`, the automaton's
`search(t)` is true iff some keyword of `K` is a contiguous substring of
`t` (overlapping keywords, where one keyword is a suffix of another
inserted keyword, are covered by the full generality of the statement). -/
theorem c4_automaton_total (K : List (List Char)) (t : List Char) :
    kwSearch K t = true ↔ ∃ k ∈ K, k <:+: t :=
  kwSearch_iff_substring K t

/-- One whitelist check of the reconciliation loop (embedded from
`src/Build/build-reject-domainset.ts` lines 137-146): a suffix-form
blacklist entry is deleted when the whitelist trie `contains` it; an
exact entry is deleted when the whitelist trie `has` its dotted form. -/
def whiteHit (tW : TNode) (d : DomainStr) : Bool :=
  if d.head? = some '.' then tW.contains d else tW.has ('.' :: d)

/-- Embedded from `buildRejectDomainSet`
(`src/Build/build-reject-domainset.ts` lines 123-153), the
whitelist-reconciliation pass over the blacklist `black`: first every
entry returned by `trie1.find(s, true)` — `trie1` built over the
blacklist, `s` ranging over the suffix blacklist and the whitelist — is
deleted; then the surviving entries are filtered by the whitelist trie
checks and the keyword filter. -/
def reconcile (black blackSuf white keywords : List DomainStr) : List DomainStr :=
  (black.filter fun d =>
      !(decide (d ∈ (blackSuf ++ white).flatMap fun w => (createTrie black).find w true))).filter
    fun d => !(whiteHit (createTrie white) d) && !(kwSearch keywords d)

theorem mem_reconcile {black blackSuf white keywords : List DomainStr} {b : DomainStr} :
    b ∈ reconcile black blackSuf white keywords ↔
      (b ∈ black.filter fun d =>
        !(decide (d ∈ (blackSuf ++ white).flatMap fun w => (createTrie black).find w true))) ∧
      whiteHit (createTrie white) b = false ∧ kwSearch keywords b = false := by
  rw [reconcile, List.mem_filter]
  simp [Bool.and_eq_true, Bool.not_eq_true', and_assoc]

/-- C1 counterexample: with blacklist `{"a.b.com"}` and whitelist
`{".b.com"}` the exact entry `a.b.com`, although covered by the
whitelist suffix entry `.b.com`, survives the reconciliation pass. -/
theorem c1_counterexample :
    (str "a.b.com") ∈ reconcile [str "a.b.com"] [] [str ".b.com"] [] ∧
    (str ".b.com") ∈ [str ".b.com"] ∧
    (str ".b.com") = '.' :: (str "b.com") ∧
    ('.' :: str "b.com") <:+ (str "a.b.com") := by
  decide

/-- C1 (amended): after the reconciliation pass a surviving blacklist
entry `b` is never a suffix-form entry covered by a whitelist suffix
entry `.X`, never equal to the label part `X` of a whitelist suffix
entry.  (An exact blacklist entry that merely ends in `".X"`, or equals
an exact whitelist entry, may survive — see the counterexample.) -/
theorem c1_whitelist_reconciliation (black blackSuf white keywords : List DomainStr)
    (b w : DomainStr) (hb : b ∈ reconcile black blackSuf white keywords)
    (hw : w ∈ white) (X : DomainStr) (hX : X ≠ []) (hwX : w = '.' :: X) :
    ¬(b = X ∨ (b.head? = some '.' ∧ ('.' :: X) <:+ b)) := by
  intro hcase
  obtain ⟨-, hwh, -⟩ := mem_reconcile.1 hb
  subst hwX
  have hsufW : suffixAt (splitDot X).reverse (createTrie white) = true :=
    (suffixAt_createTrie white _).2 ⟨'.' :: X, hw, parseEntry_dot hX⟩
  rcases hcase with rfl | ⟨hbh, hsfx⟩
  · by_cases hbh : b.head? = some '.'
    · have hc : (createTrie white).contains b = true :=
        (contains_iff _ _).2 ⟨(splitDot b).reverse, List.prefix_refl _, hsufW⟩
      rw [whiteHit, if_pos hbh, hc] at hwh
      exact absurd hwh (by simp)
    · have hhas : (createTrie white).has ('.' :: b) = true := by
        rw [TNode.has, parseEntry_dot hX]
        exact hsufW
      rw [whiteHit, if_neg hbh, hhas] at hwh
      exact absurd hwh (by simp)
  · have hc : (createTrie white).contains b = true := by
      apply (contains_iff _ _).2
      refine ⟨(splitDot X).reverse, ?_, hsufW⟩
      exact List.reverse_prefix.2 ((splitDot_suffix_iff b X).2 (Or.inr hsfx))
    rw [whiteHit, if_pos hbh, hc] at hwh
    exact absurd hwh (by simp)

/-- Witness for C1 (amended) at a concrete input. -/
theorem c1_whitelist_reconciliation_witness :
    ¬((str "a.com") = (str "z.org") ∨
      ((str "a.com").head? = some '.' ∧ ('.' :: str "z.org") <:+ (str "a.com"))) :=
  c1_whitelist_reconciliation [str "a.com"] [] [str ".z.org"] [] (str "a.com") (str ".z.org")
    (by decide) (by decide) (str "z.org") (by decide) (by decide)

/-- C5: after the reconciliation pass, no surviving blacklist entry
contains any blacklisted keyword as a contiguous substring. -/
theorem c5_no_keyword_in_output (black blackSuf white keywords : List DomainStr)
    (b k : DomainStr) (hb : b ∈ reconcile black blackSuf white keywords)
    (hk : k ∈ keywords) : ¬ (k <:+: b) := by
  intro hinf
  obtain ⟨-, -, hkw⟩ := mem_reconcile.1 hb
  have h := (kwSearch_iff_substring keywords b).2 ⟨k, hk, hinf⟩
  rw [hkw] at h
  exact absurd h (by simp)

/-- Witness for C5 at a concrete input. -/
theorem c5_no_keyword_in_output_witness : ¬ ((str "xyz") <:+: (str "a.com")) :=
  c5_no_keyword_in_output [str "a.com"] [] [] [str "xyz"] (str "a.com") (str "xyz")
    (by decide) (by decide)

/-- Modelled from the spec: `src/Build/lib/stable-sort-domain.ts`
(`createDomainSorter`) is absent from the snapshot.  The sort key of an
entry: the registrable suffix computed by the public-suffix oracle,
falling back to the raw entry string when the oracle returns none,
paired with the original entry string (spec §4.4). -/
def sortKey (oracle : String → Option String) (e : String) : String × String :=
  ((oracle e).getD e, e)

/-- Modelled from the spec: the comparator of `createDomainSorter` —
primarily the computed suffix (lexicographic on strings), secondarily
the original entry string. -/
def domainOrder (oracle : String → Option String) (a b : String) : Prop :=
  (sortKey oracle a).1 < (sortKey oracle b).1 ∨
    ((sortKey oracle a).1 = (sortKey oracle b).1 ∧ (sortKey oracle a).2 ≤ (sortKey oracle b).2)

instance domainOrderDecidable (oracle : String → Option String) :
    DecidableRel (domainOrder oracle) := fun a b => by
  unfold domainOrder
  infer_instance

instance domainOrderTotal (oracle : String → Option String) :
    IsTotal String (domainOrder oracle) := by
  refine ⟨fun a b => ?_⟩
  unfold domainOrder
  rcases lt_trichotomy (sortKey oracle a).1 (sortKey oracle b).1 with h | h | h
  · exact Or.inl (Or.inl h)
  · rcases le_total (sortKey oracle a).2 (sortKey oracle b).2 with h2 | h2
    · exact Or.inl (Or.inr ⟨h, h2⟩)
    · exact Or.inr (Or.inr ⟨h.symm, h2⟩)
  · exact Or.inr (Or.inl h)

instance domainOrderTrans (oracle : String → Option String) :
    IsTrans String (domainOrder oracle) := by
  refine ⟨fun a b c hab hbc => ?_⟩
  rcases hab with h1 | ⟨h1, h1'⟩
  · rcases hbc with h2 | ⟨h2, h2'⟩
    · exact Or.inl (h1.trans h2)
    · exact Or.inl (lt_of_lt_of_le h1 (le_of_eq h2))
  · rcases hbc with h2 | ⟨h2, h2'⟩
    · exact Or.inl (lt_of_le_of_lt (le_of_eq h1) h2)
    · exact Or.inr ⟨h1.trans h2, h1'.trans h2'⟩

/-- Modelled from the spec: `sort(entries, oracle)` — a stable sort by
the comparator (JS `Array.prototype.sort` is stable; insertion sort
realizes the same function). -/
def sortDomains (oracle : String → Option String) (l : List String) : List String :=
  List.insertionSort (domainOrder oracle) l

theorem sortKey_eq_entry_eq {oracle : String → Option String} {a b : String}
    (h : sortKey oracle a = sortKey oracle b) : a = b :=
  congrArg Prod.snd h

theorem domainOrder_of_key_eq {oracle : String → Option String} {a b : String}
    (h : sortKey oracle a = sortKey oracle b) : domainOrder oracle a b := by
  right
  exact ⟨congrArg Prod.fst h, le_of_eq (congrArg Prod.snd h)⟩

theorem filter_key_orderedInsert (oracle : String → Option String) (kk : String × String)
    (a : String) (l : List String) :
    ((List.orderedInsert (domainOrder oracle) a l).filter
        fun x => decide (sortKey oracle x = kk)) =
      if sortKey oracle a = kk then
        a :: l.filter fun x => decide (sortKey oracle x = kk)
      else l.filter fun x => decide (sortKey oracle x = kk) := by
  induction l with
  | nil =>
    rw [List.orderedInsert_nil]
    by_cases h : sortKey oracle a = kk
    · rw [if_pos h]
      simp [h]
    · rw [if_neg h]
      simp [h]
  | cons b l ih =>
    rw [show List.orderedInsert (domainOrder oracle) a (b :: l) =
        if domainOrder oracle a b then a :: b :: l
        else b :: List.orderedInsert (domainOrder oracle) a l from rfl]
    by_cases hab : domainOrder oracle a b
    · rw [if_pos hab]
      by_cases h : sortKey oracle a = kk
      · rw [if_pos h]
        simp [h]
      · rw [if_neg h]
        simp [h]
    · rw [if_neg hab]
      have hba : sortKey oracle b ≠ sortKey oracle a := by
        intro hEq
        exact hab (domainOrder_of_key_eq hEq.symm)
      by_cases h : sortKey oracle a = kk
      · rw [if_pos h]
        have hbkk : sortKey oracle b ≠ kk := by
          intro hEq
          exact hba (hEq.trans h.symm)
        rw [List.filter_cons_of_neg (by simpa using hbkk),
          List.filter_cons_of_neg (by simpa using hbkk), ih, if_pos h]
      · rw [if_neg h]
        by_cases hb : sortKey oracle b = kk
        · rw [List.filter_cons_of_pos (by simpa using hb),
            List.filter_cons_of_pos (by simpa using hb), ih, if_neg h]
        · rw [List.filter_cons_of_neg (by simpa using hb),
            List.filter_cons_of_neg (by simpa using hb), ih, if_neg h]

theorem filter_key_sortDomains (oracle : String → Option String) (l : List String)
    (kk : String × String) :
    ((sortDomains oracle l).filter fun x => decide (sortKey oracle x = kk)) =
      l.filter fun x => decide (sortKey oracle x = kk) := by
  induction l with
  | nil => rfl
  | cons a l ih =>
    rw [show sortDomains oracle (a :: l) =
        List.orderedInsert (domainOrder oracle) a (sortDomains oracle l) from rfl]
    rw [filter_key_orderedInsert]
    by_cases h : sortKey oracle a = kk
    · rw [if_pos h, ih, List.filter_cons_of_pos (by simpa using h)]
    · rw [if_neg h, ih, List.filter_cons_of_neg (by simpa using h)]

/-- C6: `sort(entries, oracle)` is a stable sort: the output is sorted
by the (suffix-or-fallback, entry-string) lexicographic comparator, is a
permutation of the input, and entries with identical keys retain their
relative input order (the key-filtered subsequence is unchanged). -/
theorem c6_sort_stable (oracle : String → Option String) (l : List String) :
    List.Sorted (domainOrder oracle) (sortDomains oracle l) ∧
      List.Perm (sortDomains oracle l) l ∧
      ∀ kk : String × String,
        ((sortDomains oracle l).filter fun x => decide (sortKey oracle x = kk)) =
          l.filter fun x => decide (sortKey oracle x = kk) :=
  ⟨List.sorted_insertionSort (domainOrder oracle) l,
    List.perm_insertionSort (domainOrder oracle) l,
    filter_key_sortDomains oracle l⟩

/-- Classification of a domain by the external tldts library (spec §2,
Public-Suffix Oracle); the core only consumes these three flags. -/
structure TldtsInfo : Type where
  isIcann : Bool
  isPrivate : Bool
  isIp : Bool

/-- Embedded from `src/Build/lib/parse-dnsmasq.ts` (`isDomainLoose`),
with the tldts parse treated as an oracle parameter. -/
def isDomainLoose (oracle : DomainStr → TldtsInfo) (domain : DomainStr) : Bool :=
  !(oracle domain).isIp && ((oracle domain).isIcann || (oracle domain).isPrivate)

/-- Embedded from `src/Build/lib/parse-dnsmasq.ts`
(`extractDomainsFromFelixDnsmasq`): if the line starts with
`"server=/"` and ends with `"/114.114.114.114"`, return
`line.slice(8, -16)` (JS slice semantics: clamp, empty when the bounds
cross), else null. -/
def extractDomainsFromFelixDnsmasq (line : DomainStr) : Option DomainStr :=
  if (str "server=/").isPrefixOf line && (str "/114.114.114.114").isSuffixOf line then
    some ((line.take (line.length - 16)).drop 8)
  else
    none

/-- Embedded from `src/Build/lib/parse-dnsmasq.ts`
(`parseFelixDnsmasqFromResp`): iterate the response lines in order and
keep each extracted domain that is truthy (non-empty) and loose-valid. -/
def parseFelixDnsmasqFromResp (oracle : DomainStr → TldtsInfo)
    (lines : List DomainStr) : List DomainStr :=
  lines.filterMap fun line =>
    match extractDomainsFromFelixDnsmasq line with
    | some domain =>
      if !domain.isEmpty && isDomainLoose oracle domain then some domain else none
    | none => none

/-- The claim-side characterization of one line: the non-empty `d` with
`line = "server=/" + d + "/114.114.114.114"` that tldts classifies as
ICANN or private and not an IP, if such a `d` exists (it is unique,
being the middle slice). -/
def felixLineSpec (oracle : DomainStr → TldtsInfo) (line : DomainStr) : Option DomainStr :=
  let d := (line.take (line.length - 16)).drop 8
  if line = str "server=/" ++ d ++ str "/114.114.114.114" ∧ d ≠ [] ∧
      isDomainLoose oracle d = true then
    some d
  else
    none

theorem slice_middle (d : DomainStr) :
    (((str "server=/" ++ d ++ str "/114.114.114.114").take
        ((str "server=/" ++ d ++ str "/114.114.114.114").length - 16)).drop 8) = d := by
  have h8 : (str "server=/").length = 8 := rfl
  have h16 : (str "/114.114.114.114").length = 16 := rfl
  have hlen : (str "server=/" ++ d ++ str "/114.114.114.114").length - 16 =
      (str "server=/" ++ d).length := by
    simp only [List.length_append, h8, h16]
    omega
  rw [hlen, List.take_left, show (str "server=/" ++ d) = str "server=/" ++ d from rfl]
  exact List.drop_left' h8

theorem extract_some_structure {line mid : DomainStr}
    (h : extractDomainsFromFelixDnsmasq line = some mid) (hne : mid ≠ []) :
    line = str "server=/" ++ mid ++ str "/114.114.114.114" := by
  unfold extractDomainsFromFelixDnsmasq at h
  by_cases hcond : ((str "server=/").isPrefixOf line &&
      (str "/114.114.114.114").isSuffixOf line) = true
  · rw [if_pos hcond] at h
    have hmid : (line.take (line.length - 16)).drop 8 = mid := Option.some.inj h
    rw [Bool.and_eq_true] at hcond
    have hpre : (str "server=/") <+: line := List.isPrefixOf_iff_prefix.1 hcond.1
    have hsuf : (str "/114.114.114.114") <:+ line := List.isSuffixOf_iff_suffix.1 hcond.2
    obtain ⟨r, rfl⟩ := hpre
    have h8 : (str "server=/").length = 8 := rfl
    have h16 : (str "/114.114.114.114").length = 16 := rfl
    have hsufr : (str "/114.114.114.114") <:+ r := by
      rcases List.suffix_or_suffix_of_suffix hsuf (List.suffix_append (str "server=/") r)
        with h' | h'
      · exact h'
      · rw [h'.eq_of_length_le (by
          by_contra hlt
          push_neg at hlt
          rw [← hmid] at hne
          apply hne
          have : ((str "server=/" ++ r).take ((str "server=/" ++ r).length - 16)).drop 8 = [] := by
            apply List.eq_nil_of_length_eq_zero
            rw [List.length_drop, List.length_take]
            rw [List.length_append, h8] at *
            rw [h16] at hlt
            omega
          exact this)]
    obtain ⟨m, rfl⟩ := hsufr
    have hmid2 : ((str "server=/" ++ (m ++ str "/114.114.114.114")).take
        ((str "server=/" ++ (m ++ str "/114.114.114.114")).length - 16)).drop 8 = m := by
      have := slice_middle m
      rwa [List.append_assoc] at this
    rw [hmid2] at hmid
    rw [hmid, List.append_assoc]
  · rw [if_neg hcond] at h
    exact absurd h (by simp)

theorem felixLine_code_eq_spec (oracle : DomainStr → TldtsInfo) (line : DomainStr) :
    (match extractDomainsFromFelixDnsmasq line with
      | some domain =>
        if !domain.isEmpty && isDomainLoose oracle domain then some domain else none
      | none => none) = felixLineSpec oracle line := by
  simp only [felixLineSpec]
  cases hx : extractDomainsFromFelixDnsmasq line with
  | none =>
    rw [if_neg]
    rintro ⟨hline, hdne, -⟩
    unfold extractDomainsFromFelixDnsmasq at hx
    rw [if_pos] at hx
    · exact absurd hx (by simp)
    · rw [Bool.and_eq_true]
      constructor
      · apply List.isPrefixOf_iff_prefix.2
        rw [hline, List.append_assoc]
        exact List.prefix_append _ _
      · apply List.isSuffixOf_iff_suffix.2
        rw [hline]
        exact List.suffix_append _ _
  | some mid =>
    have hmid : (line.take (line.length - 16)).drop 8 = mid := by
      unfold extractDomainsFromFelixDnsmasq at hx
      by_cases hcond : ((str "server=/").isPrefixOf line &&
          (str "/114.114.114.114").isSuffixOf line) = true
      · rw [if_pos hcond] at hx
        exact Option.some.inj hx
      · rw [if_neg hcond] at hx
        exact absurd hx (by simp)
    rw [hmid]
    by_cases hne : mid = []
    · subst hne
      rw [if_neg]
      · simp
      · rintro ⟨-, hcontra, -⟩
        exact hcontra rfl
    · have hline : line = str "server=/" ++ mid ++ str "/114.114.114.114" :=
        extract_some_structure hx hne
      by_cases hloose : isDomainLoose oracle mid = true
      · rw [if_pos ⟨hline, hne, hloose⟩]
        simp [List.isEmpty_iff, hne, hloose]
      · have hl' : isDomainLoose oracle mid = false := by
          cases hval : isDomainLoose oracle mid
          · rfl
          · exact absurd hval hloose
        rw [if_neg (by rintro ⟨-, -, h⟩; exact hloose h)]
        simp [hl']

/-- C9: for every oracle and every sequence of input lines,
`parseFelixDnsmasqFromResp` returns, in line order, exactly the
non-empty strings `d` whose line equals
`"server=/" + d + "/114.114.114.114"` and that the oracle classifies as
ICANN or private and not an IP; every other line contributes nothing. -/
theorem c9_parse_dnsmasq (oracle : DomainStr → TldtsInfo) :
    (∀ lines, parseFelixDnsmasqFromResp oracle lines =
      lines.filterMap (felixLineSpec oracle)) ∧
    (∀ line d, felixLineSpec oracle line = some d ↔
      (d ≠ [] ∧ line = str "server=/" ++ d ++ str "/114.114.114.114" ∧
        isDomainLoose oracle d = true)) := by
  constructor
  · intro lines
    unfold parseFelixDnsmasqFromResp
    exact List.filterMap_congr fun line _ => felixLine_code_eq_spec oracle line
  · intro line d
    simp only [felixLineSpec]
    constructor
    · intro h
      by_cases hcond : (line = str "server=/" ++ ((line.take (line.length - 16)).drop 8) ++
          str "/114.114.114.114" ∧ (line.take (line.length - 16)).drop 8 ≠ [] ∧
          isDomainLoose oracle ((line.take (line.length - 16)).drop 8) = true)
      · rw [if_pos hcond] at h
        obtain rfl := Option.some.inj h
        exact ⟨hcond.2.1, hcond.1, hcond.2.2⟩
      · rw [if_neg hcond] at h
        exact absurd h (by simp)
    · rintro ⟨hdne, rfl, hloose⟩
      rw [if_pos]
      · rw [slice_middle d]
      · rw [slice_middle d]
        exact ⟨rfl, hdne, hloose⟩

/-- The failure modes of one fetch attempt in
`src/Build/lib/fetch-assets.ts`: the shared signal aborted the attempt,
the underlying fetch rejected, or the response was rejected with
`ResponseError`. -/
inductive FetchAttemptError : Type where
  | abortError : FetchAttemptError
  | responseError : String → FetchAttemptError
  | fetchFailed : FetchAttemptError

/-- Embedded from `createFetchFallbackPromise`
(`src/Build/lib/fetch-assets.ts` lines 47-70): an attempt first observes
whether the shared abort signal fired (during the stagger sleep or just
after), then the outcome of `$$fetch` and `res.text()`; a response text
of length `< 2` fails the attempt with
`ResponseError('empty response w/o 304')` instead of returning it. -/
def createFetchFallbackPromise (signalAborted : Bool)
    (fetched : Except Unit (List Char)) : Except FetchAttemptError (List Char) :=
  if signalAborted then .error .abortError
  else
    match fetched with
    | .error _ => .error .fetchFailed
    | .ok text =>
      if text.length < 2 then .error (.responseError "empty response w/o 304")
      else .ok text

/-- Embedded from `fetchAssetsWithout304`
(`src/Build/lib/fetch-assets.ts` lines 72-78): `Promise.any` over the
primary attempt and the fallback attempts resolves with the value of a
fulfilled attempt (modelled as the first successful attempt outcome) and
rejects when every attempt fails. -/
def fetchAssetsWithout304 (attempts : List (Bool × Except Unit (List Char))) :
    Option (List Char) :=
  attempts.findSome? fun a => (createFetchFallbackPromise a.1 a.2).toOption

theorem createFetchFallbackPromise_ok {signalAborted : Bool}
    {fetched : Except Unit (List Char)} {t : List Char}
    (h : createFetchFallbackPromise signalAborted fetched = .ok t) : 2 ≤ t.length := by
  unfold createFetchFallbackPromise at h
  by_cases hab : signalAborted = true
  · rw [if_pos hab] at h
    exact absurd h (by simp)
  · rw [if_neg hab] at h
    cases fetched with
    | error e => exact absurd h (by simp)
    | ok text =>
      replace h : (if text.length < 2 then
          (Except.error (FetchAttemptError.responseError "empty response w/o 304") :
            Except FetchAttemptError (List Char))
        else Except.ok text) = Except.ok t := h
      by_cases hlen : text.length < 2
      · rw [if_pos hlen] at h
        exact absurd h (by simp)
      · rw [if_neg hlen] at h
        have hxt : text = t := by injection h
        subst hxt
        omega

/-- C10: `fetchAssetsWithout304` never resolves with a string shorter
than 2 characters — any attempt whose response text has length `< 2`
fails with a `ResponseError` rather than returning the text. -/
theorem c10_no_short_response (attempts : List (Bool × Except Unit (List Char)))
    (t : List Char) (h : fetchAssetsWithout304 attempts = some t) : 2 ≤ t.length := by
  obtain ⟨⟨ab, fe⟩, -, hsome⟩ := List.exists_of_findSome?_eq_some h
  cases hc : createFetchFallbackPromise ab fe with
  | error e =>
    rw [hc] at hsome
    exact absurd hsome (by simp [Except.toOption])
  | ok v =>
    rw [hc] at hsome
    have hvt : v = t := by simpa [Except.toOption] using hsome
    subst hvt
    exact createFetchFallbackPromise_ok hc

/-- Witness for C10 at a concrete input: a single attempt returning the
two-character response `"ab"`. -/
theorem c10_no_short_response_witness : 2 ≤ (str "ab").length :=
  c10_no_short_response [(false, Except.ok (str "ab"))] (str "ab") (by decide)

end Surge
